import Mathlib

/-!
Shallow embedding of the job-queue store engine (`storage.py`, `config.py`).

Modelling conventions:

* Timestamps are UTC epoch seconds (`Nat`).  In the source every timestamp is
  produced by `datetime.utcnow()` and persisted through
  `json.dump(..., default=str)`, i.e. as `str(datetime)`:
  `"YYYY-MM-DD HH:MM:SS[.ffffff]"` with a SPACE at index 10.  On the other
  hand `datetime.isoformat()` renders `"YYYY-MM-DDTHH:MM:SS[.ffffff]"` with a
  `T` at index 10.  Both forms start with the same zero-padded 10-character
  date, so lexicographic string comparison between two STORED timestamps
  agrees with chronological order, while the comparison
  `job["run_at"] <= now.isoformat()` in `get_next_job_for_worker` compares a
  space-form string with a T-form string: the first 10 characters decide when
  the dates differ, and when the dates are equal the characters at index 10
  decide, where `' ' < 'T'` always holds.  Hence that source comparison is
  TRUE exactly when the date of `run_at` is at most the date of `now`,
  regardless of the time of day.  We embed this as `runAtLeNowStr` below,
  with `dayOf t = t / 86400` extracting the date of an epoch-second
  timestamp.
* `uuid.uuid4()` job ids and process ids are opaque `Nat`s.
* Each store operation is one critical section under the file lock
  (`FileLock`): read the file, mutate, write.  We model the persisted file
  contents between critical sections as `StoreData` and each operation as a
  pure function `StoreData → StoreData` (plus its return value), taking the
  `datetime.utcnow()` readings and the configuration values it uses as
  explicit arguments.  The one operation that can raise out of its critical
  section, `worker_heartbeat` (see its doc comment), returns an `Except`
  whose error carries the store contents persisted before the raise.
* Python `list.sort(key=...)` is a stable sort; we model it with the stable
  `List.insertionSort`, which produces the same list as any stable sort for
  a total transitive comparison.
-/

namespace JobQueue

/-- Job states: the `state` field of a job record in `storage.py`
(`"pending"`, `"processing"`, `"completed"`, `"dead"`). -/
inductive JobState
  | pending
  | processing
  | completed
  | dead
deriving DecidableEq, Repr

/-- A job record as built by `enqueue_job` in `storage.py`. -/
structure Job where
  id : Nat
  command : String
  state : JobState
  attempts : Nat
  max_retries : Nat
  run_at : Nat
  created_at : Nat
  updated_at : Nat
deriving DecidableEq, Repr

/-- A worker-liveness record (`{"pid": ..., "last_heartbeat": ...}`). -/
structure WorkerRec where
  pid : Nat
  last_heartbeat : Nat
deriving DecidableEq, Repr

/-- The persisted document: `{"jobs": [...], "dlq": [...],
"active_workers": [...]}`. -/
structure StoreData where
  jobs : List Job
  dlq : List Job
  active_workers : List WorkerRec
deriving DecidableEq, Repr

/-- The empty snapshot `{"jobs": [], "dlq": [], "active_workers": []}`. -/
def emptyStore : StoreData := ⟨[], [], []⟩

/-- Possible states of the backing JSON file as seen by `_read_data`:
missing (`FileNotFoundError`), undecodable (`json.JSONDecodeError`), or a
parsed document, whose `active_workers` key may be absent. -/
inductive FileContent
  | missing
  | corrupt
  | parsed (jobs : List Job) (dlq : List Job) (activeWorkers : Option (List WorkerRec))

/-- Embeds `_read_data` (storage.py lines 16-24): on `FileNotFoundError` or
`json.JSONDecodeError` return the empty document; otherwise default a missing
`active_workers` key to `[]`. -/
def readData : FileContent → StoreData
  | .missing => emptyStore
  | .corrupt => emptyStore
  | .parsed js ds ws => ⟨js, ds, ws.getD []⟩

/-- Date (day number) of an epoch-second timestamp, as rendered in the first
10 characters `"YYYY-MM-DD"` of both serialization forms. -/
def dayOf (t : Nat) : Nat := t / 86400

/-- Embeds the comparison `job["run_at"] <= now.isoformat()` of
`get_next_job_for_worker`.  The left side is the stored space-separated
`str(datetime)` form, the right side the `T`-separated `isoformat()` form;
as lexicographic string comparison this holds iff the date of `run_at` is at
most the date of `now` (see the file header). -/
def runAtLeNowStr (runAt now : Nat) : Bool := decide (dayOf runAt ≤ dayOf now)

/-- The job dict built by `enqueue_job`: `state="pending"`, `attempts=0`,
`max_retries` from the per-job override or the configured default, and
`run_at = created_at = updated_at = now`. -/
def mkJob (command : String) (maxRetriesOverride : Option Nat) (cfgMaxRetries : Nat)
    (jobId now : Nat) : Job :=
  { id := jobId
    command := command
    state := .pending
    attempts := 0
    max_retries := maxRetriesOverride.getD cfgMaxRetries
    run_at := now
    created_at := now
    updated_at := now }

/-- Embeds `enqueue_job` (storage.py lines 39-58): append the new job record
to `data["jobs"]`. -/
def enqueue_job (command : String) (maxRetriesOverride : Option Nat) (cfgMaxRetries : Nat)
    (jobId now : Nat) (d : StoreData) : StoreData :=
  { d with jobs := d.jobs ++ [mkJob command maxRetriesOverride cfgMaxRetries jobId now] }

/-- The filter of `get_next_job_for_worker`:
`job["state"] == "pending" and job["run_at"] <= now.isoformat()`,
applied to an `(index, job)` pair from `enumerate(data["jobs"])`. -/
def eligiblePair (now : Nat) (p : Nat × Job) : Bool :=
  p.2.state == .pending && runAtLeNowStr p.2.run_at now

/-- The `pending_jobs` list of `get_next_job_for_worker`: enumerate the jobs
and keep the pending, run_at-eligible ones. -/
def pendingIdxJobs (now : Nat) (jobs : List Job) : List (Nat × Job) :=
  jobs.enum.filter (eligiblePair now)

/-- The sort key `lambda x: x[1]["created_at"]` of `get_next_job_for_worker`,
comparing two stored (same-format, hence chronologically ordered)
`created_at` strings. -/
def createdLe (p q : Nat × Job) : Prop := p.2.created_at ≤ q.2.created_at

instance : DecidableRel createdLe := fun p q => Nat.decLe p.2.created_at q.2.created_at

instance : IsTotal (Nat × Job) createdLe := ⟨fun p q => Nat.le_total p.2.created_at q.2.created_at⟩

instance : IsTrans (Nat × Job) createdLe :=
  ⟨fun _ _ _ h h' => Nat.le_trans h h'⟩

/-- Embeds `get_next_job_for_worker` (storage.py lines 62-87): filter the
pending run_at-eligible jobs with their indices, stable-sort by `created_at`,
and if any remains, mark the first one `processing`, bump its `updated_at`,
write it back at its index and return it; otherwise return `None` and leave
the store unchanged. -/
def get_next_job_for_worker (now : Nat) (d : StoreData) : Option Job × StoreData :=
  match (pendingIdxJobs now d.jobs).insertionSort createdLe with
  | [] => (none, d)
  | (i, j) :: _ =>
    let fj : Job := { j with state := .processing, updated_at := now }
    (some fj, { d with jobs := d.jobs.set i fj })

/-- The loop of `update_job_to_completed`: set `state="completed"` and bump
`updated_at` on the first job with the given id, leaving the rest alone. -/
def completeLoop (jobId now : Nat) : List Job → List Job
  | [] => []
  | j :: rest =>
    if j.id = jobId then { j with state := .completed, updated_at := now } :: rest
    else j :: completeLoop jobId now rest

/-- Embeds `update_job_to_completed` (storage.py lines 89-101).  When no job
matches, the source skips the write; the loop then returns the list
unchanged, so the store is unchanged either way. -/
def update_job_to_completed (jobId now : Nat) (d : StoreData) : StoreData :=
  { d with jobs := completeLoop jobId now d.jobs }

/-- The body of `handle_failed_job` acting on the first job with the given
id: increment `attempts`; if `attempts >= max_retries`, pop the job from the
list and return it (with `state="dead"`) for appending to the DLQ; else set
`state="pending"`, `run_at = now + backoff_base ** attempts` (the already
incremented attempts) and bump `updated_at`.  Returns the new `jobs` list
and the list of records to append to `dlq`. -/
def failLoop (base now jobId : Nat) : List Job → List Job × List Job
  | [] => ([], [])
  | j :: rest =>
    if j.id = jobId then
      let a := j.attempts + 1
      if j.max_retries ≤ a then
        (rest, [{ j with attempts := a, state := .dead }])
      else
        let j' : Job :=
          { j with attempts := a, state := .pending, run_at := now + base ^ a, updated_at := now }
        (j' :: rest, [])
    else
      let (js, ds) := failLoop base now jobId rest
      (j :: js, ds)

/-- Embeds `handle_failed_job` (storage.py lines 103-131).  The source only
uses `job["id"]` of its argument; when the id is absent it returns without
writing, which coincides with `failLoop` returning the lists unchanged. -/
def handle_failed_job (jobId base now : Nat) (d : StoreData) : StoreData :=
  let (js, ds) := failLoop base now jobId d.jobs
  { d with jobs := js, dlq := d.dlq ++ ds }

/-- The search-and-pop of `retry_dlq_job`: remove the first DLQ entry with
the given id, returning it and the remaining list, or `none`. -/
def dlqPop (jobId : Nat) : List Job → Option (Job × List Job)
  | [] => none
  | j :: rest =>
    if j.id = jobId then some (j, rest)
    else
      match dlqPop jobId rest with
      | none => none
      | some (x, r) => some (x, j :: r)

/-- Embeds `retry_dlq_job` (storage.py lines 215-238): if the id is not in
the DLQ return `False` and change nothing; otherwise pop the entry, reset it
(`state="pending"`, `attempts=0`, `run_at=now`, `updated_at=now`), append it
to `jobs` and return `True`. -/
def retry_dlq_job (jobId now : Nat) (d : StoreData) : Bool × StoreData :=
  match dlqPop jobId d.dlq with
  | none => (false, d)
  | some (j, rest) =>
    let j' : Job :=
      { j with state := .pending, attempts := 0, run_at := now, updated_at := now }
    (true, { d with dlq := rest, jobs := d.jobs ++ [j'] })

/-- Embeds `register_worker` (storage.py lines 177-189): drop any record
with this pid, then append a fresh record with `last_heartbeat = now`. -/
def register_worker (pid now : Nat) (d : StoreData) : StoreData :=
  { d with active_workers :=
      (d.active_workers.filter (fun w => decide (w.pid ≠ pid))) ++ [⟨pid, now⟩] }

/-- Embeds `unregister_worker` (storage.py lines 191-195). -/
def unregister_worker (pid : Nat) (d : StoreData) : StoreData :=
  { d with active_workers := d.active_workers.filter (fun w => decide (w.pid ≠ pid)) }

/-- The loop of `worker_heartbeat`: update `last_heartbeat` on the first
record with this pid, reporting whether one was found. -/
def heartbeatLoop (pid now : Nat) : List WorkerRec → Bool × List WorkerRec
  | [] => (false, [])
  | w :: rest =>
    if w.pid = pid then (true, { w with last_heartbeat := now } :: rest)
    else
      let (f, r) := heartbeatLoop pid now rest
      (f, w :: r)

/-- Embeds `worker_heartbeat` (storage.py lines 197-212).  When a record
with this pid exists, its `last_heartbeat` is updated in place and the
document is written: success, with the updated store.  When no record
exists, the source writes the (unmodified) document and then calls
`register_worker` while the file lock is still held; `register_worker`
enters `_get_lock()`, which constructs a SECOND `FileLock` object on the
same lock file.  `filelock` locks are reentrant only per object, and the
underlying `flock` denies an exclusive lock to a second file descriptor
even within the same process, so the nested acquisition spins for its
10-second timeout and raises `filelock.Timeout`: the new record is never
appended.  We model this deterministic raise as `Except.error`, carrying
the store contents at the time of the raise (the unmodified document that
was just written). -/
def worker_heartbeat (pid now : Nat) (d : StoreData) : Except StoreData StoreData :=
  let (found, ws) := heartbeatLoop pid now d.active_workers
  if found then .ok { d with active_workers := ws }
  else .error d

/-- The persisted store contents after a `worker_heartbeat` call, whether it
returned normally or raised `filelock.Timeout` out of the nested
`register_worker` (on the raise, the last write was the unmodified
document). -/
def heartbeatStore (pid now : Nat) (d : StoreData) : StoreData :=
  match worker_heartbeat pid now d with
  | .ok t => t
  | .error t => t

/-- The keep-condition of `_get_active_worker_count`:
`(now - last_heartbeat).total_seconds() < timeout_seconds` (a signed
difference in the source, hence the `Int` subtraction). -/
def workerAlive (timeoutSeconds now : Nat) (w : WorkerRec) : Bool :=
  decide ((now : Int) - (w.last_heartbeat : Int) < (timeoutSeconds : Int))

/-- The purge of `_get_active_worker_count` (storage.py lines 133-149): keep
exactly the records whose heartbeat is fresher than the timeout. -/
def purgeStaleWorkers (timeoutSeconds now : Nat) (ws : List WorkerRec) : List WorkerRec :=
  ws.filter (workerAlive timeoutSeconds now)

/-- Embeds `_get_active_worker_count`: replace `data["active_workers"]` by
the purged list and return its length.  (The `except` skip of unparsable
records is unreachable here: all modelled records are well formed.) -/
def get_active_worker_count (timeoutSeconds now : Nat) (d : StoreData) : Nat × StoreData :=
  let ws := purgeStaleWorkers timeoutSeconds now d.active_workers
  (ws.length, { d with active_workers := ws })

/-- The store mutation of `get_status` (storage.py lines 151-163): it writes
the purged document back (`# Save data to clean up stale workers`). -/
def get_status_store (timeoutSeconds now : Nat) (d : StoreData) : StoreData :=
  (get_active_worker_count timeoutSeconds now d).2

/-- Ids of the live job collection. -/
def jobIds (d : StoreData) : List Nat := d.jobs.map Job.id

/-- Ids of the dead-letter collection. -/
def dlqIds (d : StoreData) : List Nat := d.dlq.map Job.id

/-- All job ids present anywhere in the snapshot. -/
def allIds (d : StoreData) : List Nat := jobIds d ++ dlqIds d

/-- A concrete pending, immediately eligible job (used in closed instances
of the theorems below). -/
def sampleJobA : Job :=
  { id := 1, command := "a", state := .pending, attempts := 0, max_retries := 3,
    run_at := 0, created_at := 0, updated_at := 0 }

/-- A second concrete pending job, created later than `sampleJobA`. -/
def sampleJobB : Job :=
  { id := 2, command := "b", state := .pending, attempts := 0, max_retries := 3,
    run_at := 0, created_at := 10, updated_at := 0 }

/-- A store holding `sampleJobA` and `sampleJobB`. -/
def sampleStoreAB : StoreData := ⟨[sampleJobA, sampleJobB], [], []⟩

/-- A pending job whose `run_at` (39600, i.e. 11:00:00 UTC of day 0) is in
the future relative to `now = 36000` but on the same date. -/
def sampleJobFuture : Job :=
  { id := 1, command := "a", state := .pending, attempts := 1, max_retries := 3,
    run_at := 39600, created_at := 0, updated_at := 0 }

/-- A pending job that is genuinely eligible (`run_at = 0`), created later
than `sampleJobFuture`. -/
def sampleJobReady : Job :=
  { id := 2, command := "b", state := .pending, attempts := 0, max_retries := 3,
    run_at := 0, created_at := 10, updated_at := 0 }

/-- A store holding `sampleJobFuture` and `sampleJobReady`. -/
def sampleStoreFR : StoreData := ⟨[sampleJobFuture, sampleJobReady], [], []⟩

/-- A processing job one failure away from exhausting its retry budget
(`attempts = 2`, `max_retries = 3`). -/
def sampleJobLastTry : Job :=
  { id := 9, command := "c", state := .processing, attempts := 2, max_retries := 3,
    run_at := 0, created_at := 0, updated_at := 0 }

/-- A dead-letter entry with exhausted attempts. -/
def sampleDeadJob : Job :=
  { id := 3, command := "d", state := .dead, attempts := 3, max_retries := 3,
    run_at := 7, created_at := 5, updated_at := 6 }

/-- One serialized critical section on the store.  Each constructor is one
public operation of `storage.py`; the `utcnow()` readings and configuration
values are arbitrary.  `enqueue` carries the freshness of the generated
`uuid4` id (ids are globally unique and never reused). -/
inductive Step : StoreData → StoreData → Prop
  | enqueue (command : String) (mr : Option Nat) (cfgMax jobId now : Nat) (s : StoreData)
      (hfresh : jobId ∉ allIds s) :
      Step s (enqueue_job command mr cfgMax jobId now s)
  | dispatch (now : Nat) (s : StoreData) :
      Step s (get_next_job_for_worker now s).2
  | complete (jobId now : Nat) (s : StoreData) :
      Step s (update_job_to_completed jobId now s)
  | fail (jobId base now : Nat) (s : StoreData) :
      Step s (handle_failed_job jobId base now s)
  | dlqRetry (jobId now : Nat) (s : StoreData) :
      Step s (retry_dlq_job jobId now s).2
  | register (pid now : Nat) (s : StoreData) :
      Step s (register_worker pid now s)
  | unregister (pid : Nat) (s : StoreData) :
      Step s (unregister_worker pid s)
  | heartbeat (pid now : Nat) (s : StoreData) :
      Step s (heartbeatStore pid now s)
  | status (timeoutSeconds now : Nat) (s : StoreData) :
      Step s (get_status_store timeoutSeconds now s)

/-- Snapshots reachable from the empty store through serialized operations. -/
inductive Reachable : StoreData → Prop
  | init : Reachable emptyStore
  | step {s s' : StoreData} : Reachable s → Step s s' → Reachable s'

theorem set_of_getElem?_eq {α : Type _} {l : List α} {i : Nat} {a : α}
    (h : l[i]? = some a) : l.set i a = l := by
  induction l generalizing i with
  | nil => simp at h
  | cons b t ih =>
    cases i with
    | zero => simp at h; simp [h]
    | succ n => simp at h ⊢; exact ih h

theorem insertionSort_createdLe_head {l : List (Nat × Job)} {p : Nat × Job}
    {t : List (Nat × Job)} (h : l.insertionSort createdLe = p :: t) :
    p ∈ l ∧ ∀ q ∈ l, p.2.created_at ≤ q.2.created_at := by
  have hs := List.sorted_insertionSort createdLe l
  rw [h] at hs
  refine ⟨?_, ?_⟩
  · have hp : p ∈ l.insertionSort createdLe := by
      rw [h]; exact List.mem_cons_self _ _
    exact (List.mem_insertionSort createdLe).1 hp
  · intro q hq
    have hq' : q ∈ p :: t := by
      rw [← h]; exact (List.mem_insertionSort createdLe).2 hq
    rcases List.mem_cons.1 hq' with rfl | hq''
    · exact Nat.le_refl _
    · exact List.rel_of_sorted_cons hs q hq''

theorem insertionSort_createdLe_eq_nil {l : List (Nat × Job)}
    (h : l.insertionSort createdLe = []) : l = [] := by
  have hp := List.perm_insertionSort createdLe l
  rw [h] at hp
  exact (List.Perm.nil_eq hp).symm

theorem mem_pendingIdxJobs {now : Nat} {jobs : List Job} {p : Nat × Job} :
    p ∈ pendingIdxJobs now jobs ↔
      jobs[p.1]? = some p.2 ∧ p.2.state = .pending ∧ dayOf p.2.run_at ≤ dayOf now := by
  unfold pendingIdxJobs eligiblePair runAtLeNowStr
  rw [List.mem_filter, List.mem_enum_iff_getElem?]
  simp [and_assoc]

theorem dispatch_none_of_nil {now : Nat} {d : StoreData}
    (h : pendingIdxJobs now d.jobs = []) :
    get_next_job_for_worker now d = (none, d) := by
  unfold get_next_job_for_worker
  rw [h]
  rfl

theorem dispatch_some_elim {now : Nat} {d : StoreData} {fj : Job}
    (h : (get_next_job_for_worker now d).1 = some fj) :
    ∃ i j, d.jobs[i]? = some j ∧ j.state = .pending ∧ dayOf j.run_at ≤ dayOf now ∧
      fj = { j with state := .processing, updated_at := now } ∧
      (get_next_job_for_worker now d).2 = { d with jobs := d.jobs.set i fj } ∧
      ∀ q ∈ pendingIdxJobs now d.jobs, j.created_at ≤ q.2.created_at := by
  cases hs : (pendingIdxJobs now d.jobs).insertionSort createdLe with
  | nil =>
    have := dispatch_none_of_nil (d := d) (insertionSort_createdLe_eq_nil hs)
    rw [this] at h
    simp at h
  | cons p t =>
    obtain ⟨hmem, hmin⟩ := insertionSort_createdLe_head hs
    obtain ⟨hget, hpend, helig⟩ := mem_pendingIdxJobs.1 hmem
    have hgo : get_next_job_for_worker now d =
        (some { p.2 with state := .processing, updated_at := now },
         { d with jobs := d.jobs.set p.1 { p.2 with state := .processing, updated_at := now } }) := by
      unfold get_next_job_for_worker
      rw [hs]
    rw [hgo] at h
    refine ⟨p.1, p.2, hget, hpend, helig, ?_, ?_, ?_⟩
    · exact (Option.some.inj h).symm
    · rw [hgo, ← Option.some.inj h]
    · intro q hq
      exact hmin q hq

theorem completeLoop_of_decomp {pre : List Job} {j : Job} (post : List Job) (now : Nat)
    (hpre : ∀ k ∈ pre, k.id ≠ j.id) :
    completeLoop j.id now (pre ++ j :: post) =
      pre ++ { j with state := .completed, updated_at := now } :: post := by
  induction pre with
  | nil => simp [completeLoop]
  | cons a pre ih =>
    have ha : a.id ≠ j.id := hpre a (List.mem_cons_self _ _)
    simp only [List.cons_append, completeLoop, if_neg ha]
    rw [List.append_eq, ih (fun k hk => hpre k (List.mem_cons_of_mem _ hk))]

/-- C8: `_read_data` on a missing backing file, or on a file whose contents
cannot be decoded as JSON, returns the empty snapshot (empty job list, empty
dead-letter list, empty worker set) instead of raising. -/
theorem read_data_missing_or_corrupt_is_empty :
    readData .missing = emptyStore ∧ readData .corrupt = emptyStore ∧
      emptyStore.jobs = [] ∧ emptyStore.dlq = [] ∧ emptyStore.active_workers = [] :=
  ⟨rfl, rfl, rfl, rfl, rfl⟩

/-- C10: `update_job_to_completed` sets the state of the first job with the
given id to `completed` and bumps `updated_at` regardless of that job's
current state — there is no hypothesis on `j.state`, so a pending or already
completed job is marked completed just the same. -/
theorem update_job_to_completed_ignores_state
    (pre post dlq : List Job) (j : Job) (ws : List WorkerRec) (now : Nat)
    (hpre : ∀ k ∈ pre, k.id ≠ j.id) :
    update_job_to_completed j.id now ⟨pre ++ j :: post, dlq, ws⟩ =
      ⟨pre ++ { j with state := .completed, updated_at := now } :: post, dlq, ws⟩ := by
  unfold update_job_to_completed
  simp only
  rw [completeLoop_of_decomp post now hpre]

/-- Witness for C10 at a concrete input: a job that was never dispatched
(state `pending`) is marked `completed` anyway. -/
theorem update_job_to_completed_ignores_state_witness :
    update_job_to_completed 7 50
        ⟨[{ id := 7, command := "c", state := .pending, attempts := 0, max_retries := 3,
            run_at := 0, created_at := 0, updated_at := 0 }], [], []⟩ =
      ⟨[{ id := 7, command := "c", state := .completed, attempts := 0, max_retries := 3,
          run_at := 0, created_at := 0, updated_at := 50 }], [], []⟩ := by
  exact update_job_to_completed_ignores_state [] []
    []
    { id := 7, command := "c", state := .pending, attempts := 0, max_retries := 3,
      run_at := 0, created_at := 0, updated_at := 0 }
    [] 50 (by intro k hk; simp at hk)

/-- C1: exhibit of the dispatch eligibility bug.  At `now = 36000`
(10:00:00 UTC on day 0) the store holds a single pending job with
`run_at = 39600` (11:00:00 UTC on day 0, one hour in the future, as a
backoff reschedule would produce); `get_next_job_for_worker` nevertheless
returns it and marks it processing, because the source compares the stored
space-separated `str(datetime)` against `now.isoformat()` as strings, which
collapses to a date-only comparison. -/
theorem dispatch_returns_job_with_future_run_at :
    (get_next_job_for_worker 36000
        ⟨[{ id := 1, command := "c", state := .pending, attempts := 1, max_retries := 3,
            run_at := 39600, created_at := 0, updated_at := 0 }], [], []⟩).1 =
      some { id := 1, command := "c", state := .processing, attempts := 1, max_retries := 3,
             run_at := 39600, created_at := 0, updated_at := 36000 } ∧
      36000 < 39600 := by
  exact ⟨rfl, by decide⟩

/-- C2: lease exclusivity.  If the jobs of a snapshot carry distinct ids,
then after a dispatch has returned a job (persisting it as `processing`), a
subsequent dispatch on the resulting store never returns a job with the same
id. -/
theorem dispatch_lease_exclusive (d : StoreData) (n m : Nat) {j k : Job}
    (h₀ : (d.jobs.map Job.id).Nodup)
    (h₁ : (get_next_job_for_worker n d).1 = some j)
    (h₂ : (get_next_job_for_worker m (get_next_job_for_worker n d).2).1 = some k) :
    k.id ≠ j.id := by
  obtain ⟨i, j0, hget, hpend, helig, hjeq, hd2, hmin⟩ := dispatch_some_elim h₁
  obtain ⟨i₂, k0, hget₂, hpend₂, helig₂, hkeq, hd2₂, hmin₂⟩ := dispatch_some_elim h₂
  rw [hd2] at hget₂
  have hset₂ : (d.jobs.set i j)[i₂]? = some k0 := hget₂
  have hi : i < d.jobs.length := by
    rcases List.getElem?_eq_some_iff.1 hget with ⟨h, _⟩
    exact h
  by_cases hii : i₂ = i
  · subst hii
    have hj : (d.jobs.set i₂ j)[i₂]? = some j :=
      List.getElem?_set_self (by simpa using hi)
    rw [hj] at hset₂
    have hk0 : k0 = j := (Option.some.inj hset₂).symm
    rw [hk0, hjeq] at hpend₂
    simp at hpend₂
  · intro hkj
    have hkid : k0.id = j0.id := by
      have e1 : k.id = k0.id := by rw [hkeq]
      have e2 : j.id = j0.id := by rw [hjeq]
      rw [e1, e2] at hkj
      exact hkj
    have hgd : d.jobs[i₂]? = some k0 := by
      rw [List.getElem?_set_ne (fun hh => hii hh.symm)] at hset₂
      exact hset₂
    have hm1 : (d.jobs.map Job.id)[i]? = some j0.id := by
      rw [List.getElem?_map, hget]
      rfl
    have hm2 : (d.jobs.map Job.id)[i₂]? = some k0.id := by
      rw [List.getElem?_map, hgd]
      rfl
    have hieq : i = i₂ :=
      List.getElem?_inj (by simpa using hi) h₀ (by rw [hm1, hm2, hkid])
    exact hii hieq.symm

/-- Witness for C2: on `sampleStoreAB`, the first dispatch returns job 1 and
the second returns job 2, with distinct ids. -/
theorem dispatch_lease_exclusive_witness :
    (get_next_job_for_worker 100 sampleStoreAB).1 =
        some { sampleJobA with state := .processing, updated_at := 100 } ∧
      (get_next_job_for_worker 100 (get_next_job_for_worker 100 sampleStoreAB).2).1 =
        some { sampleJobB with state := .processing, updated_at := 100 } ∧
      ({ sampleJobB with state := .processing, updated_at := 100 } : Job).id ≠
        ({ sampleJobA with state := .processing, updated_at := 100 } : Job).id := by
  refine ⟨by decide, by decide,
    dispatch_lease_exclusive sampleStoreAB 100 100 (by decide) (by decide) (by decide)⟩

/-- C4 counterexample: at `now = 36000`, `sampleStoreFR` holds the
non-eligible `sampleJobFuture` (`run_at = 39600 > now`, same date) and the
eligible `sampleJobReady` (`run_at = 0`); dispatch returns `sampleJobFuture`
because of its earlier `created_at`, so the selected job is NOT among the
jobs whose `run_at` has elapsed, contradicting the claim as stated. -/
theorem dispatch_selects_job_outside_eligible_set :
    (get_next_job_for_worker 36000 sampleStoreFR).1 =
        some { sampleJobFuture with state := .processing, updated_at := 36000 } ∧
      36000 < sampleJobFuture.run_at ∧
      sampleJobReady ∈ sampleStoreFR.jobs ∧
      sampleJobReady.state = .pending ∧
      sampleJobReady.run_at ≤ 36000 := by
  refine ⟨by decide, by decide, ?_, by decide, by decide⟩
  show sampleJobReady ∈ [sampleJobFuture, sampleJobReady]
  exact List.mem_cons_of_mem _ (List.mem_cons_self _ _)

/-- C4 (amended): with eligibility as the code computes it — `state` pending
and the DATE of `run_at` at most the date of `now` (the serialization-format
mismatch makes the source's string comparison date-granular) — dispatch
returns `none` leaving the store unchanged exactly when no job is eligible;
a returned job is an eligible job of minimal `created_at`, marked
`processing`; and two successive dispatches at the same time return jobs
with non-decreasing `created_at`. -/
theorem dispatch_oldest_eligible_first (d : StoreData) (n : Nat) :
    ((get_next_job_for_worker n d).1 = none ↔
        ∀ j ∈ d.jobs, ¬(j.state = .pending ∧ dayOf j.run_at ≤ dayOf n)) ∧
      ((get_next_job_for_worker n d).1 = none → (get_next_job_for_worker n d).2 = d) ∧
      (∀ fj, (get_next_job_for_worker n d).1 = some fj →
        ∃ j ∈ d.jobs, j.state = .pending ∧ dayOf j.run_at ≤ dayOf n ∧
          fj = { j with state := .processing, updated_at := n } ∧
          ∀ q ∈ d.jobs, q.state = .pending → dayOf q.run_at ≤ dayOf n →
            j.created_at ≤ q.created_at) ∧
      (∀ fj fk, (get_next_job_for_worker n d).1 = some fj →
        (get_next_job_for_worker n (get_next_job_for_worker n d).2).1 = some fk →
          fj.created_at ≤ fk.created_at) := by
  have hnil : pendingIdxJobs n d.jobs = [] ↔
      ∀ j ∈ d.jobs, ¬(j.state = .pending ∧ dayOf j.run_at ≤ dayOf n) := by
    rw [List.eq_nil_iff_forall_not_mem]
    constructor
    · intro h j hj ⟨hp, he⟩
      rcases List.mem_iff_getElem?.1 hj with ⟨iq, hiq⟩
      exact h (iq, j) (mem_pendingIdxJobs.2 ⟨hiq, hp, he⟩)
    · intro h p hp
      obtain ⟨hget, hpend, helig⟩ := mem_pendingIdxJobs.1 hp
      have hmem : p.2 ∈ d.jobs := by
        rcases List.getElem?_eq_some_iff.1 hget with ⟨hlt, hEq⟩
        exact hEq ▸ List.getElem_mem hlt
      exact h p.2 hmem ⟨hpend, helig⟩
  have hnone : (get_next_job_for_worker n d).1 = none ↔ pendingIdxJobs n d.jobs = [] := by
    constructor
    · intro h
      cases hs : (pendingIdxJobs n d.jobs).insertionSort createdLe with
      | nil => exact insertionSort_createdLe_eq_nil hs
      | cons p t =>
        have : (get_next_job_for_worker n d).1 =
            some { p.2 with state := .processing, updated_at := n } := by
          unfold get_next_job_for_worker
          rw [hs]
        rw [h] at this
        simp at this
    · intro h
      rw [dispatch_none_of_nil h]
  refine ⟨hnone.trans hnil, ?_, ?_, ?_⟩
  · intro h
    rw [dispatch_none_of_nil (hnone.1 h)]
  · intro fj hfj
    obtain ⟨i, j, hget, hpend, helig, hjeq, hd2, hmin⟩ := dispatch_some_elim hfj
    have hmem : j ∈ d.jobs := by
      rcases List.getElem?_eq_some_iff.1 hget with ⟨hlt, hEq⟩
      exact hEq ▸ List.getElem_mem hlt
    refine ⟨j, hmem, hpend, helig, hjeq, ?_⟩
    intro q hq hqp hqe
    rcases List.mem_iff_getElem?.1 hq with ⟨iq, hiq⟩
    exact hmin (iq, q) (mem_pendingIdxJobs.2 ⟨hiq, hqp, hqe⟩)
  · intro fj fk hfj hfk
    obtain ⟨i, j, hget, hpend, helig, hjeq, hd2, hmin⟩ := dispatch_some_elim hfj
    obtain ⟨i₂, k, hget₂, hpend₂, helig₂, hkeq, hd2₂, hmin₂⟩ := dispatch_some_elim hfk
    rw [hd2] at hget₂
    have hset₂ : (d.jobs.set i fj)[i₂]? = some k := hget₂
    have hi : i < d.jobs.length := by
      rcases List.getElem?_eq_some_iff.1 hget with ⟨h, _⟩
      exact h
    by_cases hii : i₂ = i
    · subst hii
      have hj : (d.jobs.set i₂ fj)[i₂]? = some fj :=
        List.getElem?_set_self (by simpa using hi)
      rw [hj] at hset₂
      have hk0 : k = fj := (Option.some.inj hset₂).symm
      rw [hk0, hjeq] at hpend₂
      simp at hpend₂
    · have hgd : d.jobs[i₂]? = some k := by
        rw [List.getElem?_set_ne (fun hh => hii hh.symm)] at hset₂
        exact hset₂
      have : j.created_at ≤ k.created_at :=
        hmin (i₂, k) (mem_pendingIdxJobs.2 ⟨hgd, hpend₂, helig₂⟩)
      have e1 : fj.created_at = j.created_at := by rw [hjeq]
      have e2 : fk.created_at = k.created_at := by rw [hkeq]
      rw [e1, e2]
      exact this

/-- Witness for C4 (amended) at `sampleStoreAB`: the first dispatch returns
the earlier-created job 1 and the second the later-created job 2, in
non-decreasing `created_at` order. -/
theorem dispatch_oldest_eligible_first_witness :
    ({ sampleJobA with state := .processing, updated_at := 100 } : Job).created_at ≤
      ({ sampleJobB with state := .processing, updated_at := 100 } : Job).created_at :=
  (dispatch_oldest_eligible_first sampleStoreAB 100).2.2.2
    { sampleJobA with state := .processing, updated_at := 100 }
    { sampleJobB with state := .processing, updated_at := 100 }
    (by decide) (by decide)

theorem failLoop_of_decomp {pre : List Job} {j : Job} (post : List Job) (base now : Nat)
    (hpre : ∀ k ∈ pre, k.id ≠ j.id) :
    failLoop base now j.id (pre ++ j :: post) =
      if j.max_retries ≤ j.attempts + 1 then
        (pre ++ post, [{ j with attempts := j.attempts + 1, state := .dead }])
      else
        (pre ++
          { j with
            attempts := j.attempts + 1
            state := .pending
            run_at := now + base ^ (j.attempts + 1)
            updated_at := now } :: post,
         []) := by
  induction pre with
  | nil =>
    by_cases hc : j.max_retries ≤ j.attempts + 1
    · simp [failLoop, hc]
    · simp [failLoop, hc]
  | cons a pre ih =>
    have ha : a.id ≠ j.id := hpre a (List.mem_cons_self _ _)
    have ih' := ih (fun k hk => hpre k (List.mem_cons_of_mem _ hk))
    by_cases hc : j.max_retries ≤ j.attempts + 1
    · rw [if_pos hc] at ih' ⊢
      simp only [List.cons_append, failLoop, if_neg ha, List.append_eq, ih']
    · rw [if_neg hc] at ih' ⊢
      simp only [List.cons_append, failLoop, if_neg ha, List.append_eq, ih']

/-- C3: `handle_failed_job` on a store whose live collection decomposes as
`pre ++ j :: post` with `j` the first job carrying the failed id: attempts
are incremented first; if the incremented count reaches `max_retries` the
job is removed from the live collection and appended, with state forced to
`dead`, to the dead-letter collection (in particular a job failed at
`attempts = max_retries - 1` lands there with `attempts = max_retries`);
otherwise it stays in place, pending, with
`run_at = now + base ^ (attempts + 1)` — the already incremented attempts as
the exponent — and a bumped `updated_at`. -/
theorem handle_failed_job_spec (pre post dlq : List Job) (j : Job) (ws : List WorkerRec)
    (base now : Nat) (hpre : ∀ k ∈ pre, k.id ≠ j.id) :
    handle_failed_job j.id base now ⟨pre ++ j :: post, dlq, ws⟩ =
      (if j.max_retries ≤ j.attempts + 1 then
        ⟨pre ++ post, dlq ++ [{ j with attempts := j.attempts + 1, state := .dead }], ws⟩
      else
        ⟨pre ++
          { j with
            attempts := j.attempts + 1
            state := .pending
            run_at := now + base ^ (j.attempts + 1)
            updated_at := now } :: post,
          dlq, ws⟩) := by
  unfold handle_failed_job
  rw [failLoop_of_decomp post base now hpre]
  by_cases hc : j.max_retries ≤ j.attempts + 1
  · rw [if_pos hc, if_pos hc]
  · rw [if_neg hc, if_neg hc]
    simp

/-- Witness for C3: failing `sampleJobLastTry` (attempts 2, max_retries 3)
moves it to the DLQ as `dead` with `attempts = 3 = max_retries`. -/
theorem handle_failed_job_spec_witness :
    handle_failed_job 9 2 100 ⟨[sampleJobLastTry], [], []⟩ =
      ⟨[], [{ sampleJobLastTry with attempts := 3, state := .dead }], []⟩ := by
  rw [show (⟨[sampleJobLastTry], [], []⟩ : StoreData) =
        ⟨[] ++ sampleJobLastTry :: [], [], []⟩ from rfl,
      show (9 : Nat) = sampleJobLastTry.id from rfl,
      handle_failed_job_spec [] [] [] sampleJobLastTry [] 2 100 (by simp)]
  decide

theorem dlqPop_of_decomp {pre : List Job} {j : Job} (post : List Job)
    (hpre : ∀ k ∈ pre, k.id ≠ j.id) :
    dlqPop j.id (pre ++ j :: post) = some (j, pre ++ post) := by
  induction pre with
  | nil => simp [dlqPop]
  | cons a pre ih =>
    have ha : a.id ≠ j.id := hpre a (List.mem_cons_self _ _)
    simp only [List.cons_append, dlqPop, if_neg ha, List.append_eq,
      ih (fun k hk => hpre k (List.mem_cons_of_mem _ hk))]

theorem dlqPop_none {jobId : Nat} {l : List Job} (h : ∀ k ∈ l, k.id ≠ jobId) :
    dlqPop jobId l = none := by
  induction l with
  | nil => rfl
  | cons a t ih =>
    have ha : a.id ≠ jobId := h a (List.mem_cons_self _ _)
    simp only [dlqPop, if_neg ha, ih (fun k hk => h k (List.mem_cons_of_mem _ hk))]

/-- C7: `retry_dlq_job` with an id present in the dead-letter collection
removes that (first matching) entry, resets `attempts` to 0, sets `run_at`
(and `updated_at`) to now and `state` to pending, appends it to the live
collection and returns true; with an id absent from the dead-letter
collection it returns false and leaves the snapshot unchanged. -/
theorem retry_dlq_job_spec (now : Nat) :
    (∀ (jobs pre post : List Job) (j : Job) (ws : List WorkerRec),
      (∀ k ∈ pre, k.id ≠ j.id) →
      retry_dlq_job j.id now ⟨jobs, pre ++ j :: post, ws⟩ =
        (true, ⟨jobs ++
                  [{ j with
                     state := .pending
                     attempts := 0
                     run_at := now
                     updated_at := now }],
                pre ++ post, ws⟩)) ∧
    (∀ (i : Nat) (d : StoreData), (∀ k ∈ d.dlq, k.id ≠ i) →
      retry_dlq_job i now d = (false, d)) := by
  constructor
  · intro jobs pre post j ws hpre
    unfold retry_dlq_job
    rw [show (⟨jobs, pre ++ j :: post, ws⟩ : StoreData).dlq = pre ++ j :: post from rfl,
      dlqPop_of_decomp post hpre]
  · intro i d h
    unfold retry_dlq_job
    rw [dlqPop_none h]

/-- Witness for C7: retrying `sampleDeadJob` out of the DLQ re-enqueues it
pending with `attempts = 0` and `run_at = now`, and retrying an absent id
returns false leaving the store untouched. -/
theorem retry_dlq_job_spec_witness :
    retry_dlq_job 3 50 ⟨[], [sampleDeadJob], []⟩ =
        (true,
         ⟨[{ sampleDeadJob with
             state := .pending
             attempts := 0
             run_at := 50
             updated_at := 50 }], [], []⟩) ∧
      retry_dlq_job 4 50 ⟨[], [sampleDeadJob], []⟩ = (false, ⟨[], [sampleDeadJob], []⟩) := by
  constructor
  · rw [show (3 : Nat) = sampleDeadJob.id from rfl,
      show (⟨[], [sampleDeadJob], []⟩ : StoreData) =
        ⟨[], [] ++ sampleDeadJob :: [], []⟩ from rfl,
      (retry_dlq_job_spec 50).1 [] [] [] sampleDeadJob [] (by simp)]
    decide
  · exact (retry_dlq_job_spec 50).2 4 ⟨[], [sampleDeadJob], []⟩ (by decide)

/-- C9: exhibit of the self-heal failure.  A heartbeat for pid 5, which has
no liveness record in the empty store, does not register the worker: the
source's not-found branch calls `register_worker` while the file lock is
still held, the nested `FileLock` acquisition self-conflicts and raises
`filelock.Timeout` after its 10-second timeout, and the persisted store
still contains no record for pid 5 (only the unmodified document written
just before the raise). -/
theorem heartbeat_unregistered_times_out :
    worker_heartbeat 5 0 emptyStore = .error emptyStore ∧
      heartbeatStore 5 0 emptyStore = emptyStore ∧
      (heartbeatStore 5 0 emptyStore).active_workers.map WorkerRec.pid = [] :=
  ⟨rfl, rfl, rfl⟩

theorem failLoop_cons_ne {b n i : Nat} {a : Job} {t : List Job} (ha : a.id ≠ i) :
    failLoop b n i (a :: t) = (a :: (failLoop b n i t).1, (failLoop b n i t).2) := by
  cases hfl : failLoop b n i t with
  | mk js ds => simp [failLoop, if_neg ha, hfl]

theorem mem_completeLoop {i n : Nat} {l : List Job} {q : Job}
    (h : q ∈ completeLoop i n l) :
    q ∈ l ∨ ∃ j ∈ l, q = { j with state := .completed, updated_at := n } := by
  induction l with
  | nil => simp [completeLoop] at h
  | cons a t ih =>
    by_cases ha : a.id = i
    · rw [completeLoop, if_pos ha] at h
      rcases List.mem_cons.1 h with rfl | hq
      · exact Or.inr ⟨a, List.mem_cons_self _ _, rfl⟩
      · exact Or.inl (List.mem_cons_of_mem _ hq)
    · rw [completeLoop, if_neg ha] at h
      rcases List.mem_cons.1 h with rfl | hq
      · exact Or.inl (List.mem_cons_self _ _)
      · rcases ih hq with hq1 | ⟨j, hj, hEq⟩
        · exact Or.inl (List.mem_cons_of_mem _ hq1)
        · exact Or.inr ⟨j, List.mem_cons_of_mem _ hj, hEq⟩

theorem mem_failLoop_fst {b n i : Nat} {l : List Job} {q : Job}
    (h : q ∈ (failLoop b n i l).1) :
    q ∈ l ∨ ∃ j ∈ l, j.attempts + 1 < j.max_retries ∧
      q = { j with
            attempts := j.attempts + 1
            state := .pending
            run_at := n + b ^ (j.attempts + 1)
            updated_at := n } := by
  induction l with
  | nil => simp [failLoop] at h
  | cons a t ih =>
    by_cases ha : a.id = i
    · simp only [failLoop, if_pos ha] at h
      by_cases hc : a.max_retries ≤ a.attempts + 1
      · rw [if_pos hc] at h
        exact Or.inl (List.mem_cons_of_mem _ h)
      · rw [if_neg hc] at h
        rcases List.mem_cons.1 h with rfl | hq
        · exact Or.inr ⟨a, List.mem_cons_self _ _, Nat.not_le.1 hc, rfl⟩
        · exact Or.inl (List.mem_cons_of_mem _ hq)
    · rw [failLoop_cons_ne ha] at h
      rcases List.mem_cons.1 h with rfl | hq
      · exact Or.inl (List.mem_cons_self _ _)
      · rcases ih hq with hq1 | ⟨j, hj, hlt, hEq⟩
        · exact Or.inl (List.mem_cons_of_mem _ hq1)
        · exact Or.inr ⟨j, List.mem_cons_of_mem _ hj, hlt, hEq⟩

theorem completeLoop_map_id (i n : Nat) (l : List Job) :
    (completeLoop i n l).map Job.id = l.map Job.id := by
  induction l with
  | nil => rfl
  | cons a t ih =>
    by_cases ha : a.id = i
    · simp [completeLoop, ha]
    · simp [completeLoop, ha, ih]

theorem failLoop_ids_perm (b n i : Nat) (l : List Job) :
    ((failLoop b n i l).1.map Job.id ++ (failLoop b n i l).2.map Job.id).Perm
      (l.map Job.id) := by
  induction l with
  | nil => simp [failLoop]
  | cons a t ih =>
    by_cases ha : a.id = i
    · simp only [failLoop, if_pos ha]
      by_cases hc : a.max_retries ≤ a.attempts + 1
      · rw [if_pos hc]
        simp only [List.map_cons, List.map_nil]
        exact List.perm_append_singleton a.id (t.map Job.id)
      · rw [if_neg hc]
        simp
    · rw [failLoop_cons_ne ha]
      simpa using ih.cons a.id

theorem dlqPop_perm {i : Nat} {l r : List Job} {j : Job}
    (h : dlqPop i l = some (j, r)) : l.Perm (j :: r) := by
  induction l generalizing r with
  | nil => simp [dlqPop] at h
  | cons a t ih =>
    by_cases ha : a.id = i
    · simp only [dlqPop, if_pos ha, Option.some.injEq, Prod.mk.injEq] at h
      obtain ⟨rfl, rfl⟩ := h
      exact List.Perm.refl _
    · simp only [dlqPop, if_neg ha] at h
      cases hdp : dlqPop i t with
      | none => rw [hdp] at h; simp at h
      | some p =>
        cases p with
        | mk x rest =>
          rw [hdp] at h
          simp only [Option.some.injEq, Prod.mk.injEq] at h
          obtain ⟨rfl, rfl⟩ := h
          exact ((ih hdp).cons a).trans (List.Perm.swap x a rest)

theorem heartbeatStore_jobs_dlq (p n : Nat) (d : StoreData) :
    (heartbeatStore p n d).jobs = d.jobs ∧ (heartbeatStore p n d).dlq = d.dlq := by
  unfold heartbeatStore worker_heartbeat
  cases hl : heartbeatLoop p n d.active_workers with
  | mk f ws => cases f <;> simp

theorem dispatch_snd_cases (n : Nat) (d : StoreData) :
    (get_next_job_for_worker n d).2 = d ∨
      ∃ i j, d.jobs[i]? = some j ∧ j.state = .pending ∧
        (get_next_job_for_worker n d).2 =
          { d with jobs := d.jobs.set i { j with state := .processing, updated_at := n } } := by
  cases hs : (pendingIdxJobs n d.jobs).insertionSort createdLe with
  | nil =>
    left
    rw [dispatch_none_of_nil (insertionSort_createdLe_eq_nil hs)]
  | cons p t =>
    right
    obtain ⟨hmem, hmin⟩ := insertionSort_createdLe_head hs
    obtain ⟨hget, hpend, helig⟩ := mem_pendingIdxJobs.1 hmem
    refine ⟨p.1, p.2, hget, hpend, ?_⟩
    unfold get_next_job_for_worker
    rw [hs]

theorem attemptsOk_step {s t : StoreData} (h : Step s t)
    (hs : ∀ j ∈ s.jobs, j.attempts ≤ j.max_retries) :
    ∀ j ∈ t.jobs, j.attempts ≤ j.max_retries := by
  cases h with
  | enqueue c mr cm ji n s hfresh =>
    intro j hj
    rcases List.mem_append.1 hj with hj | hj
    · exact hs j hj
    · rcases List.mem_cons.1 hj with rfl | hj
      · exact Nat.zero_le _
      · simp at hj
  | dispatch n s =>
    intro j hj
    rcases dispatch_snd_cases n s with hcase | ⟨i, j0, hget, hpend, hcase⟩
    · rw [hcase] at hj
      exact hs j hj
    · rw [hcase] at hj
      rcases List.mem_or_eq_of_mem_set hj with hj | rfl
      · exact hs j hj
      · have hj0 : j0 ∈ s.jobs := by
          rcases List.getElem?_eq_some_iff.1 hget with ⟨hlt, hEq⟩
          exact hEq ▸ List.getElem_mem hlt
        simpa using hs j0 hj0
  | complete ji n s =>
    intro j hj
    rcases mem_completeLoop hj with hj | ⟨j0, hj0, rfl⟩
    · exact hs j hj
    · simpa using hs j0 hj0
  | fail ji b n s =>
    intro j hj
    rcases mem_failLoop_fst hj with hj | ⟨j0, hj0, hlt, rfl⟩
    · exact hs j hj
    · simpa using Nat.le_of_lt hlt
  | dlqRetry ji n s =>
    intro j hj
    cases hdp : dlqPop ji s.dlq with
    | none =>
      have ht : (retry_dlq_job ji n s).2 = s := by
        unfold retry_dlq_job
        rw [hdp]
      rw [ht] at hj
      exact hs j hj
    | some q =>
      cases q with
      | mk x rest =>
        have ht : (retry_dlq_job ji n s).2 = { s with dlq := rest, jobs := s.jobs ++ [{ x with state := .pending, attempts := 0, run_at := n, updated_at := n }] } := by
          unfold retry_dlq_job
          rw [hdp]
        rw [ht] at hj
        rcases List.mem_append.1 hj with hj | hj
        · exact hs j hj
        · rcases List.mem_cons.1 hj with rfl | hj
          · exact Nat.zero_le _
          · simp at hj
  | register p n s =>
    intro j hj
    exact hs j hj
  | unregister p s =>
    intro j hj
    exact hs j hj
  | heartbeat p n s =>
    intro j hj
    rw [(heartbeatStore_jobs_dlq p n s).1] at hj
    exact hs j hj
  | status ts n s =>
    intro j hj
    exact hs j hj

theorem attemptsOk_of_reachable {s : StoreData} (h : Reachable s) :
    ∀ j ∈ s.jobs, j.attempts ≤ j.max_retries := by
  induction h with
  | init =>
    intro j hj
    simp [emptyStore] at hj
  | step hr hstep ih => exact attemptsOk_step hstep ih

/-- C5: in every reachable snapshot, every live job that is pending or
processing has `attempts ≤ max_retries`; all operations (enqueue with
`attempts = 0`, dispatch, complete, fail, dlq-retry with its reset to 0, and
the worker-liveness operations) preserve this. -/
theorem pending_processing_attempts_le_max {s : StoreData} (h : Reachable s) :
    ∀ j ∈ s.jobs, (j.state = .pending ∨ j.state = .processing) →
      j.attempts ≤ j.max_retries :=
  fun j hj _ => attemptsOk_of_reachable h j hj

/-- Witness for C5 at the reachable store obtained by one enqueue. -/
theorem pending_processing_attempts_le_max_witness :
    (mkJob "a" none 3 1 0).attempts ≤ (mkJob "a" none 3 1 0).max_retries :=
  pending_processing_attempts_le_max
    (Reachable.step Reachable.init
      (Step.enqueue "a" none 3 1 0 emptyStore
        (by simp [allIds, jobIds, dlqIds, emptyStore])))
    (mkJob "a" none 3 1 0)
    (by simp [enqueue_job, emptyStore])
    (Or.inl rfl)

theorem perm_mid_singleton {α : Type _} (X D : List α) (i : α) :
    ((X ++ [i]) ++ D).Perm ((X ++ D) ++ [i]) := by
  rw [List.append_assoc, List.append_assoc]
  exact List.Perm.append_left X List.perm_append_comm

theorem perm_pull_left {α : Type _} {F G J : List α} (D : List α)
    (h : (F ++ G).Perm J) : (F ++ (D ++ G)).Perm (J ++ D) := by
  have h1 : (F ++ (D ++ G)).Perm (F ++ (G ++ D)) :=
    List.Perm.append_left _ List.perm_append_comm
  have h2 : F ++ (G ++ D) = (F ++ G) ++ D := (List.append_assoc _ _ _).symm
  rw [h2] at h1
  exact h1.trans (List.Perm.append_right D h)

theorem perm_snoc_append {α : Type _} {E R : List α} {x : α} (J : List α)
    (h : E.Perm (x :: R)) : ((J ++ [x]) ++ R).Perm (J ++ E) := by
  rw [List.append_assoc]
  exact List.Perm.append_left J h.symm

theorem allIds_step {s t : StoreData} (h : Step s t) :
    (allIds t).Perm (allIds s) ∨
      ∃ i, i ∉ allIds s ∧ (allIds t).Perm (allIds s ++ [i]) := by
  cases h with
  | enqueue c mr cm ji n s hfresh =>
    right
    refine ⟨ji, hfresh, ?_⟩
    have hEq : allIds (enqueue_job c mr cm ji n s) =
        (s.jobs.map Job.id ++ [ji]) ++ s.dlq.map Job.id := by
      show (s.jobs ++ [mkJob c mr cm ji n]).map Job.id ++ s.dlq.map Job.id = _
      rw [List.map_append]
      rfl
    rw [hEq]
    exact perm_mid_singleton (s.jobs.map Job.id) (s.dlq.map Job.id) ji
  | dispatch n s =>
    left
    rcases dispatch_snd_cases n s with hcase | ⟨i, j0, hget, hpend, hcase⟩
    · rw [hcase]
    · rw [hcase]
      have hm : (s.jobs.map Job.id)[i]? = some j0.id := by
        rw [List.getElem?_map, hget]
        rfl
      have hEq : allIds { s with jobs := s.jobs.set i { j0 with state := .processing, updated_at := n } } = (s.jobs.map Job.id).set i j0.id ++ s.dlq.map Job.id := by
        show (s.jobs.set i { j0 with state := .processing, updated_at := n }).map Job.id ++ s.dlq.map Job.id = _
        rw [List.map_set]
      rw [hEq, set_of_getElem?_eq hm]
      exact List.Perm.refl _
  | complete ji n s =>
    left
    have hEq : allIds (update_job_to_completed ji n s) =
        s.jobs.map Job.id ++ s.dlq.map Job.id := by
      show (completeLoop ji n s.jobs).map Job.id ++ s.dlq.map Job.id = _
      rw [completeLoop_map_id]
    rw [hEq]
    exact List.Perm.refl _
  | fail ji b n s =>
    left
    cases hfl : failLoop b n ji s.jobs with
    | mk js ds =>
      have ht : handle_failed_job ji b n s = { s with jobs := js, dlq := s.dlq ++ ds } := by
        unfold handle_failed_job
        rw [hfl]
      have hids := failLoop_ids_perm b n ji s.jobs
      rw [hfl] at hids
      rw [ht]
      have hEq : allIds { s with jobs := js, dlq := s.dlq ++ ds } =
          js.map Job.id ++ (s.dlq.map Job.id ++ ds.map Job.id) := by
        show js.map Job.id ++ (s.dlq ++ ds).map Job.id = _
        rw [List.map_append]
      rw [hEq]
      exact perm_pull_left (s.dlq.map Job.id) hids
  | dlqRetry ji n s =>
    left
    cases hdp : dlqPop ji s.dlq with
    | none =>
      have ht : (retry_dlq_job ji n s).2 = s := by
        unfold retry_dlq_job
        rw [hdp]
      rw [ht]
    | some q =>
      cases q with
      | mk x rest =>
        have ht : (retry_dlq_job ji n s).2 = { s with dlq := rest, jobs := s.jobs ++ [{ x with state := .pending, attempts := 0, run_at := n, updated_at := n }] } := by
          unfold retry_dlq_job
          rw [hdp]
        rw [ht]
        have hperm : (s.dlq.map Job.id).Perm (x.id :: rest.map Job.id) := by
          simpa using (dlqPop_perm hdp).map Job.id
        have hEq : allIds { s with dlq := rest, jobs := s.jobs ++ [{ x with state := .pending, attempts := 0, run_at := n, updated_at := n }] } = (s.jobs.map Job.id ++ [x.id]) ++ rest.map Job.id := by
          show (s.jobs ++ [{ x with state := .pending, attempts := 0, run_at := n, updated_at := n }]).map Job.id ++ rest.map Job.id = _
          rw [List.map_append]
          rfl
        rw [hEq]
        exact perm_snoc_append (s.jobs.map Job.id) hperm
  | register p n s =>
    left
    exact List.Perm.refl _
  | unregister p s =>
    left
    exact List.Perm.refl _
  | heartbeat p n s =>
    left
    have hEq : allIds (heartbeatStore p n s) = allIds s := by
      show (heartbeatStore p n s).jobs.map Job.id ++
          (heartbeatStore p n s).dlq.map Job.id = _
      rw [(heartbeatStore_jobs_dlq p n s).1, (heartbeatStore_jobs_dlq p n s).2]
      rfl
    rw [hEq]
  | status ts n s =>
    left
    exact List.Perm.refl _

theorem allIds_nodup_step {s t : StoreData} (h : Step s t)
    (hn : (allIds s).Nodup) : (allIds t).Nodup := by
  rcases allIds_step h with hp | ⟨i, hi, hp⟩
  · exact hp.nodup_iff.2 hn
  · refine hp.nodup_iff.2 ?_
    refine List.Nodup.append hn (List.nodup_singleton i) ?_
    intro a ha hb
    exact hi ((List.mem_singleton.1 hb) ▸ ha)

theorem allIds_nodup_of_reachable {s : StoreData} (h : Reachable s) :
    (allIds s).Nodup := by
  induction h with
  | init => simp [allIds, jobIds, dlqIds, emptyStore]
  | step hr hstep ih => exact allIds_nodup_step hstep ih

/-- C6: in every reachable snapshot, an id present anywhere is in exactly
one of the live collection and the dead-letter collection (never both), and
every serialized operation preserves its presence (never neither): fail
moves a job to the DLQ, and dlq-retry moves it back, within one operation
each. -/
theorem enqueued_id_in_exactly_one_collection {s : StoreData} (h : Reachable s) :
    (∀ i ∈ allIds s, (i ∈ jobIds s ∧ i ∉ dlqIds s) ∨ (i ∉ jobIds s ∧ i ∈ dlqIds s)) ∧
      (∀ t, Step s t → ∀ i ∈ allIds s, i ∈ allIds t) := by
  have hn := allIds_nodup_of_reachable h
  constructor
  · intro i hi
    have hdisj := List.disjoint_of_nodup_append hn
    rcases List.mem_append.1 hi with hj | hd
    · exact Or.inl ⟨hj, fun hd => hdisj hj hd⟩
    · exact Or.inr ⟨fun hj => hdisj hj hd, hd⟩
  · intro t hst i hi
    rcases allIds_step hst with hp | ⟨x, hx, hp⟩
    · exact hp.mem_iff.2 hi
    · exact hp.mem_iff.2 (List.mem_append_left _ hi)

/-- Witness for C6: after enqueuing job id 1 into the empty store, id 1 is
in exactly one of the two collections. -/
theorem enqueued_id_in_exactly_one_collection_witness :
    (1 ∈ jobIds (enqueue_job "a" none 3 1 0 emptyStore) ∧
        1 ∉ dlqIds (enqueue_job "a" none 3 1 0 emptyStore)) ∨
      (1 ∉ jobIds (enqueue_job "a" none 3 1 0 emptyStore) ∧
        1 ∈ dlqIds (enqueue_job "a" none 3 1 0 emptyStore)) :=
  (enqueued_id_in_exactly_one_collection
      (Reachable.step Reachable.init
        (Step.enqueue "a" none 3 1 0 emptyStore
          (by simp [allIds, jobIds, dlqIds, emptyStore])))).1
    1 (by simp [allIds, jobIds, dlqIds, enqueue_job, emptyStore, mkJob])

end JobQueue
